import Mathlib

/-!
Shallow embedding of `cubical/machines/interval_gain_machine.py`
(class `PerIntervalGains`): interval geometry derived in `__init__`,
the binned reductions `interval_sum` / `interval_and` built on
`np.add.reduceat` / `np.logical_and.reduceat`, and the statistics
refresh `compute_stats`.

Arrays are embedded as total functions on `Nat` indices together with
explicit axis lengths where an axis length influences the computation
(the `reduceat` final segment extends to the end of the actual axis).
Flag values are `Nat` bit sets; the floating-point
`missing_gain_fraction` is embedded as a rational number.
-/

namespace CubiCal

/-- Modelled from the spec: the flag-bit enumeration `cubical.flagging.FL`
is external to this repository excerpt (only `cubical/machines/` is
present).  The spec requires a bitset enumeration with at least the
distinct bits `MISSING`, `PRIOR`, `ILLCOND`; we fix three distinct
single-bit values. -/
def FL.MISSING : Nat := 1

/-- Modelled from the spec: distinct `PRIOR` flag bit of `cubical.flagging.FL`. -/
def FL.PRIOR : Nat := 2

/-- Modelled from the spec: distinct `ILLCOND` flag bit of `cubical.flagging.FL`. -/
def FL.ILLCOND : Nat := 4

/-- Python `range(0, stop, step)` for `step ≥ 1`: the multiples of `step`
below `stop`, in increasing order; its length is `ceil(stop / step)`,
which for naturals is `(stop + step - 1) / step`. -/
def pyRange (stop step : Nat) : List Nat :=
  (List.range ((stop + step - 1) / step)).map (fun i => i * step)

/-- Geometry state built by `PerIntervalGains.__init__` from the model
array shape `(n_dir, n_mod, n_tim, n_fre, n_ant, n_ant, n_cor, n_cor)`
and options `time-int` / `freq-int`. -/
structure Gains where
  n_dir : Nat
  n_mod : Nat
  n_tim : Nat
  n_fre : Nat
  n_ant : Nat
  n_cor : Nat
  t_int : Nat
  f_int : Nat
deriving Repr, DecidableEq

namespace Gains

/-- `self.n_timint = int(np.ceil(float(self.n_tim) / self.t_int))`. -/
def n_timint (g : Gains) : Nat := (g.n_tim + g.t_int - 1) / g.t_int

/-- `self.n_freint = int(np.ceil(float(self.n_fre) / self.f_int))`. -/
def n_freint (g : Gains) : Nat := (g.n_fre + g.f_int - 1) / g.f_int

/-- `self.n_tf_ints = self.n_timint * self.n_freint`. -/
def n_tf_ints (g : Gains) : Nat := g.n_timint * g.n_freint

/-- `self.t_bins = range(0, self.n_tim, self.t_int)`. -/
def t_bins (g : Gains) : List Nat := pyRange g.n_tim g.t_int

/-- `self.f_bins = range(0, self.n_fre, self.f_int)`. -/
def f_bins (g : Gains) : List Nat := pyRange g.n_fre g.f_int

/-- `self.gain_shape = [n_dir, n_timint, n_freint, n_ant, n_cor, n_cor]`. -/
def gain_shape (g : Gains) : List Nat :=
  [g.n_dir, g.n_timint, g.n_freint, g.n_ant, g.n_cor, g.n_cor]

/-- `self.flag_shape = [n_dir, n_timint, n_freint, n_ant]`. -/
def flag_shape (g : Gains) : List Nat :=
  [g.n_dir, g.n_timint, g.n_freint, g.n_ant]

end Gains

/-- `self.gflags = np.zeros(self.flag_shape, FL.dtype)`: the
zero-initialized gain-flag array, indexed `(dir, timint, freint, ant)`. -/
def gflags0 : Nat → Nat → Nat → Nat → Nat := fun _ _ _ _ => 0

/-- `PerIntervalGains.__init__`: unpacks the 8-tuple model-array shape
(assigning `n_ant` twice, so axis 5 wins, and `n_cor` twice, so axis 7
wins); any other arity raises and yields no machine. -/
def mkGains (shape : List Nat) (t_int f_int : Nat) : Option Gains :=
  match shape with
  | [d, m, t, f, _a1, a2, _c1, c2] =>
      some { n_dir := d, n_mod := m, n_tim := t, n_fre := f,
             n_ant := a2, n_cor := c2, t_int := t_int, f_int := f_int }
  | _ => none

/-- The index set of segment `i` of `np.<op>.reduceat(arr, bins, axis)`:
segment `i` covers `[bins[i], bins[i+1])`, the final segment extending
to the axis length `L`.  (Faithful for strictly increasing `bins`,
which is the only way `t_bins` / `f_bins` are ever built.) -/
def seg (bins : List Nat) (L i : Nat) : Finset Nat :=
  Finset.Ico (bins.getD i 0) (bins.getD (i + 1) L)

/-- One segment of `np.add.reduceat`. -/
def reduceatSum (bins : List Nat) (L : Nat) (arr : Nat → Nat) (i : Nat) : Nat :=
  ∑ t ∈ seg bins L i, arr t

/-- One segment of `np.logical_and.reduceat`: conjunction over the
segment, `true` on an empty segment (the AND identity). -/
def reduceatAll (bins : List Nat) (L : Nat) (arr : Nat → Bool) (i : Nat) : Bool :=
  decide (∀ t ∈ seg bins L i, arr t = true)

/-- `interval_sum`: `np.add.reduceat(np.add.reduceat(arr, t_bins, 0), f_bins, 1)`
on a 2-axis array whose actual axis lengths are `lt`, `lf`. -/
def Gains.interval_sum (g : Gains) (lt lf : Nat) (arr : Nat → Nat → Nat)
    (i j : Nat) : Nat :=
  reduceatSum g.f_bins lf (fun f => reduceatSum g.t_bins lt (fun t => arr t f) i) j

/-- `interval_and`: `np.logical_and.reduceat` over the time axis then the
frequency axis of a boolean array with actual axis lengths `lt`, `lf`. -/
def Gains.interval_and (g : Gains) (lt lf : Nat) (arr : Nat → Nat → Bool)
    (i j : Nat) : Bool :=
  reduceatAll g.f_bins lf (fun f => reduceatAll g.t_bins lt (fun t => arr t f) i) j

/-- Sample-level flag array passed to `compute_stats`: axes
`(time, freq, antenna, trailing)` with actual lengths recorded. -/
structure FlagsArr where
  lt : Nat
  lf : Nat
  la : Nat
  lx : Nat
  data : Nat → Nat → Nat → Nat → Nat

/-- Sample-level equation-count array `eqs_per_tf_slot`: axes
`(time, freq)` with actual lengths recorded. -/
structure EqsArr where
  lt : Nat
  lf : Nat
  data : Nat → Nat → Nat

/-- The attributes written by one `compute_stats` call. -/
structure StatsState where
  gflags : Nat → Nat → Nat → Nat → Nat
  eqs_per_interval : Nat → Nat → Nat
  valid_intervals : Nat → Nat → Bool
  num_valid_intervals : Nat
  missing_gain_fraction : ℚ

/-- `(flags & (FL.MISSING|FL.PRIOR) != 0).all(axis=-1)`: per
`(time, freq, antenna)` sample, whether every trailing sub-element's
flag value intersects the `MISSING|PRIOR` mask. -/
def allMissingPrior (flags : FlagsArr) (t f a : Nat) : Bool :=
  decide (∀ x ∈ Finset.range flags.lx,
    flags.data t f a x &&& (FL.MISSING ||| FL.PRIOR) ≠ 0)

/-- The local `missing_gains` array of `compute_stats`, shape
`(n_timint, n_freint, la)` but indexed here `(i, j, a)` as functions. -/
def missingGains (g : Gains) (flags : FlagsArr) (i j a : Nat) : Bool :=
  g.interval_and flags.lt flags.lf (fun t f => allMissingPrior flags t f a) i j

/-- `PerIntervalGains.compute_stats(flags, eqs_per_tf_slot)`, acting on
the current gain-flag array `gf` and producing the refreshed attribute
state.  Mirrors the source line by line: `eqs_per_interval` is the
binned sum; `valid_intervals = eqs_per_interval > 0`;
`num_valid_intervals = valid_intervals.sum()`; the slots where
`missing_gains` holds are overwritten with `FL.MISSING` for every
direction (`self.gflags[:, missing_gains] = FL.MISSING`); and
`missing_gain_fraction = missing_gains.sum() / float(missing_gains.size)`. -/
def computeStats (g : Gains) (gf : Nat → Nat → Nat → Nat → Nat)
    (flags : FlagsArr) (eqs : EqsArr) : StatsState :=
  let eqsPI := g.interval_sum eqs.lt eqs.lf eqs.data
  let valid := fun i j => decide (0 < eqsPI i j)
  let numValid : Nat := ∑ i ∈ Finset.range g.n_timint, ∑ j ∈ Finset.range g.n_freint,
    (if valid i j then 1 else 0)
  let mg := missingGains g flags
  let mgSum : Nat := ∑ i ∈ Finset.range g.n_timint, ∑ j ∈ Finset.range g.n_freint,
    ∑ a ∈ Finset.range flags.la, (if mg i j a then 1 else 0)
  { gflags := fun d i j a => if mg i j a then FL.MISSING else gf d i j a
    eqs_per_interval := eqsPI
    valid_intervals := valid
    num_valid_intervals := numValid
    missing_gain_fraction :=
      (mgSum : ℚ) / ((g.n_timint * g.n_freint * flags.la : Nat) : ℚ) }

/-! ### Geometry lemmas: `pyRange` and the `reduceat` segments -/

lemma pyRange_length (stop step : Nat) :
    (pyRange stop step).length = (stop + step - 1) / step := by
  simp [pyRange]

lemma pyRange_getD (stop step i d : Nat) (h : i < (stop + step - 1) / step) :
    (pyRange stop step).getD i d = i * step := by
  simp [pyRange, List.getD_eq_getElem?_getD, List.getElem?_map, List.getElem?_range, h]

lemma pyRange_getD_default (stop step i : Nat) (d : Nat)
    (h : (stop + step - 1) / step ≤ i) :
    (pyRange stop step).getD i d = d := by
  rw [List.getD_eq_default]
  simpa [pyRange_length]

lemma le_ceil_mul (stop step : Nat) (hstep : 1 ≤ step) :
    stop ≤ ((stop + step - 1) / step) * step := by
  have h := le_smul_ceilDiv (a := step) (b := stop) hstep
  simpa [Nat.ceilDiv_eq_add_pred_div, smul_eq_mul, Nat.mul_comm] using h

lemma ceil_pos (stop step : Nat) (hstep : 1 ≤ step) (hstop : 1 ≤ stop) :
    1 ≤ (stop + step - 1) / step :=
  Nat.div_pos (by omega) (by omega)

lemma ceil_pred_mul_lt (stop step : Nat) (hstep : 1 ≤ step) (hstop : 1 ≤ stop) :
    (((stop + step - 1) / step) - 1) * step < stop := by
  by_contra h
  push_neg at h
  have h2 : (stop + step - 1) / step ≤ ((stop + step - 1) / step) - 1 := by
    have := (ceilDiv_le_iff_le_mul (a := step) (b := stop) hstep).mpr (by
      simpa [Nat.mul_comm] using h)
    simpa [Nat.ceilDiv_eq_add_pred_div] using this
  have := ceil_pos stop step hstep hstop
  omega

/-- For an in-range segment index and a well-shaped axis (`L = stop`),
segment `i` of the reduceat over `range(0, stop, step)` is exactly
`[i*step, min((i+1)*step, stop))`. -/
lemma seg_pyRange (stop step i : Nat) (hstep : 1 ≤ step) (hstop : 1 ≤ stop)
    (hi : i < (stop + step - 1) / step) :
    seg (pyRange stop step) stop i =
      Finset.Ico (i * step) (min ((i + 1) * step) stop) := by
  unfold seg
  rw [pyRange_getD stop step i 0 hi]
  rcases lt_or_ge (i + 1) ((stop + step - 1) / step) with h | h
  · rw [pyRange_getD stop step (i + 1) stop h]
    congr 1
    have h1 : (i + 1) * step ≤ (((stop + step - 1) / step) - 1) * step :=
      Nat.mul_le_mul_right _ (by omega)
    have h2 := ceil_pred_mul_lt stop step hstep hstop
    omega
  · rw [pyRange_getD_default stop step (i + 1) stop h]
    congr 1
    have h1 := le_ceil_mul stop step hstep
    have h2 : stop ≤ (i + 1) * step :=
      le_trans h1 (Nat.mul_le_mul_right _ (by omega))
    omega

/-- `interval_sum` on a well-shaped array: output cell `(i, j)` is the
sum of exactly the input cells with time index in
`[i*t_int, min((i+1)*t_int, n_tim))` and frequency index in
`[j*f_int, min((j+1)*f_int, n_fre))`. -/
lemma interval_sum_eq (g : Gains) (arr : Nat → Nat → Nat) (i j : Nat)
    (ht : 1 ≤ g.t_int) (hf : 1 ≤ g.f_int)
    (htim : 1 ≤ g.n_tim) (hfre : 1 ≤ g.n_fre)
    (hi : i < g.n_timint) (hj : j < g.n_freint) :
    g.interval_sum g.n_tim g.n_fre arr i j =
      ∑ t ∈ Finset.Ico (i * g.t_int) (min ((i + 1) * g.t_int) g.n_tim),
        ∑ f ∈ Finset.Ico (j * g.f_int) (min ((j + 1) * g.f_int) g.n_fre),
          arr t f := by
  unfold Gains.interval_sum reduceatSum
  rw [show g.t_bins = pyRange g.n_tim g.t_int from rfl,
      show g.f_bins = pyRange g.n_fre g.f_int from rfl,
      seg_pyRange g.n_tim g.t_int i ht htim hi,
      seg_pyRange g.n_fre g.f_int j hf hfre hj]
  exact Finset.sum_comm

/-- `interval_and` on a well-shaped array: output cell `(i, j)` is true
iff every cell of the corresponding sample block is true. -/
lemma interval_and_eq (g : Gains) (arr : Nat → Nat → Bool) (i j : Nat)
    (ht : 1 ≤ g.t_int) (hf : 1 ≤ g.f_int)
    (htim : 1 ≤ g.n_tim) (hfre : 1 ≤ g.n_fre)
    (hi : i < g.n_timint) (hj : j < g.n_freint) :
    g.interval_and g.n_tim g.n_fre arr i j = true ↔
      ∀ t ∈ Finset.Ico (i * g.t_int) (min ((i + 1) * g.t_int) g.n_tim),
        ∀ f ∈ Finset.Ico (j * g.f_int) (min ((j + 1) * g.f_int) g.n_fre),
          arr t f = true := by
  unfold Gains.interval_and reduceatAll
  rw [show g.t_bins = pyRange g.n_tim g.t_int from rfl,
      show g.f_bins = pyRange g.n_fre g.f_int from rfl,
      seg_pyRange g.n_tim g.t_int i ht htim hi,
      seg_pyRange g.n_fre g.f_int j hf hfre hj]
  simp only [decide_eq_true_eq]
  exact ⟨fun h t htm f hfm => h f hfm t htm, fun h f hfm t htm => h t htm f hfm⟩

/-! ### Unfolding lemmas for `computeStats` -/

/-- The count of true entries of the `missing_gains` array
(`missing_gains.sum()` in the source), over its actual shape
`(n_timint, n_freint, la)`. -/
def mgCount (g : Gains) (flags : FlagsArr) : Nat :=
  ∑ i ∈ Finset.range g.n_timint, ∑ j ∈ Finset.range g.n_freint,
    ∑ a ∈ Finset.range flags.la, (if missingGains g flags i j a then 1 else 0)

lemma computeStats_gflags (g : Gains) (gf : Nat → Nat → Nat → Nat → Nat)
    (flags : FlagsArr) (eqs : EqsArr) :
    (computeStats g gf flags eqs).gflags =
      fun d i j a => if missingGains g flags i j a then FL.MISSING else gf d i j a :=
  rfl

lemma computeStats_eqs_per_interval (g : Gains) (gf : Nat → Nat → Nat → Nat → Nat)
    (flags : FlagsArr) (eqs : EqsArr) :
    (computeStats g gf flags eqs).eqs_per_interval =
      g.interval_sum eqs.lt eqs.lf eqs.data :=
  rfl

lemma computeStats_valid_intervals (g : Gains) (gf : Nat → Nat → Nat → Nat → Nat)
    (flags : FlagsArr) (eqs : EqsArr) :
    (computeStats g gf flags eqs).valid_intervals =
      fun i j => decide (0 < g.interval_sum eqs.lt eqs.lf eqs.data i j) :=
  rfl

lemma computeStats_num_valid (g : Gains) (gf : Nat → Nat → Nat → Nat → Nat)
    (flags : FlagsArr) (eqs : EqsArr) :
    (computeStats g gf flags eqs).num_valid_intervals =
      ∑ i ∈ Finset.range g.n_timint, ∑ j ∈ Finset.range g.n_freint,
        (if 0 < g.interval_sum eqs.lt eqs.lf eqs.data i j then 1 else 0) := by
  unfold computeStats
  simp

lemma computeStats_fraction (g : Gains) (gf : Nat → Nat → Nat → Nat → Nat)
    (flags : FlagsArr) (eqs : EqsArr) :
    (computeStats g gf flags eqs).missing_gain_fraction =
      (mgCount g flags : ℚ) / ((g.n_timint * g.n_freint * flags.la : Nat) : ℚ) :=
  rfl

/-- The spec-side phrasing of the `missing_gains` condition at interval
`(i, j)` and antenna `a`: every contributing sample of the interval
block has its flag value intersecting `MISSING|PRIOR` on all trailing
sub-elements. -/
def blockAllMissing (g : Gains) (flags : FlagsArr) (i j a : Nat) : Prop :=
  ∀ t ∈ Finset.Ico (i * g.t_int) (min ((i + 1) * g.t_int) g.n_tim),
    ∀ f ∈ Finset.Ico (j * g.f_int) (min ((j + 1) * g.f_int) g.n_fre),
      ∀ x ∈ Finset.range flags.lx,
        flags.data t f a x &&& (FL.MISSING ||| FL.PRIOR) ≠ 0

instance (g : Gains) (flags : FlagsArr) (i j a : Nat) :
    Decidable (blockAllMissing g flags i j a) := by
  unfold blockAllMissing
  infer_instance

/-- The computed `missing_gains` entry agrees with the spec-side block
condition on well-shaped inputs and in-range interval indices. -/
lemma missingGains_iff (g : Gains) (flags : FlagsArr) (i j a : Nat)
    (ht : 1 ≤ g.t_int) (hf : 1 ≤ g.f_int)
    (htim : 1 ≤ g.n_tim) (hfre : 1 ≤ g.n_fre)
    (hlt : flags.lt = g.n_tim) (hlf : flags.lf = g.n_fre)
    (hi : i < g.n_timint) (hj : j < g.n_freint) :
    missingGains g flags i j a = true ↔ blockAllMissing g flags i j a := by
  unfold missingGains blockAllMissing
  rw [hlt, hlf,
      interval_and_eq g (fun t f => allMissingPrior flags t f a) i j
        ht hf htim hfre hi hj]
  unfold allMissingPrior
  simp only [decide_eq_true_eq]

/-! ### Concrete fixtures used by witnesses and counterexamples -/

/-- A minimal machine: one direction, one sample along each axis,
intervals of size one. -/
def g1 : Gains :=
  { n_dir := 1, n_mod := 1, n_tim := 1, n_fre := 1, n_ant := 1, n_cor := 1,
    t_int := 1, f_int := 1 }

/-- The example machine of the spec scenario: `n_tim = 10`, `t_int = 3`. -/
def gEx : Gains :=
  { n_dir := 2, n_mod := 1, n_tim := 10, n_fre := 4, n_ant := 3, n_cor := 2,
    t_int := 3, f_int := 2 }

/-- Flag input for `g1` in which every sample is `MISSING`-flagged. -/
def flagsAll : FlagsArr := ⟨1, 1, 1, 1, fun _ _ _ _ => FL.MISSING⟩

/-- Flag input for `g1` in which no sample carries any flag. -/
def flagsNone : FlagsArr := ⟨1, 1, 1, 1, fun _ _ _ _ => 0⟩

/-- Equation-count input for `g1`: one equation per slot. -/
def eqsA : EqsArr := ⟨1, 1, fun _ _ => 1⟩

/-- A prior gain-flag state with the `ILLCOND` bit set everywhere. -/
def gfIll : Nat → Nat → Nat → Nat → Nat := fun _ _ _ _ => FL.ILLCOND

/-! ### Claim theorems -/

lemma pyRange_props (stop step : Nat) (hstep : 1 ≤ step) (hstop : 1 ≤ stop) :
    stop ≤ ((stop + step - 1) / step) * step ∧
    (((stop + step - 1) / step) - 1) * step < stop ∧
    (pyRange stop step).length = (stop + step - 1) / step ∧
    (∀ i, i < (stop + step - 1) / step → (pyRange stop step).getD i 0 = i * step) ∧
    (pyRange stop step).getD 0 0 = 0 ∧
    (∀ i, i + 1 < (stop + step - 1) / step →
      (pyRange stop step).getD i 0 < (pyRange stop step).getD (i + 1) 0 ∧
      (pyRange stop step).getD (i + 1) 0 = (pyRange stop step).getD i 0 + step) ∧
    (∀ i, i < (stop + step - 1) / step → (pyRange stop step).getD i 0 < stop) := by
  have hq := ceil_pos stop step hstep hstop
  have hlast := ceil_pred_mul_lt stop step hstep hstop
  refine ⟨le_ceil_mul stop step hstep, hlast, pyRange_length stop step,
    fun i hi => pyRange_getD stop step i 0 hi, ?_, ?_, ?_⟩
  · rw [pyRange_getD stop step 0 0 (by omega)]
    exact Nat.zero_mul step
  · intro i hi
    rw [pyRange_getD stop step i 0 (by omega), pyRange_getD stop step (i + 1) 0 hi]
    constructor
    · have : i * step < i * step + step := by omega
      calc i * step < i * step + step := this
        _ = (i + 1) * step := by ring
    · ring
  · intro i hi
    rw [pyRange_getD stop step i 0 hi]
    calc i * step ≤ (((stop + step - 1) / step) - 1) * step :=
          Nat.mul_le_mul_right _ (by omega)
      _ < stop := hlast

/-- C4: for `n_tim ≥ 1` and `t_int ≥ 1` (and symmetrically for the
frequency axis), `n_timint` is the ceiling of `n_tim / t_int`
(characterized by `n_tim ≤ n_timint * t_int` and
`(n_timint - 1) * t_int < n_tim`) and `t_bins` has exactly `n_timint`
entries `i * t_int`, strictly increasing with step `t_int`, starting
at `0`, each less than `n_tim`. -/
theorem C4_interval_geometry (g : Gains)
    (ht : 1 ≤ g.t_int) (hf : 1 ≤ g.f_int)
    (htim : 1 ≤ g.n_tim) (hfre : 1 ≤ g.n_fre) :
    (g.n_tim ≤ g.n_timint * g.t_int ∧
     (g.n_timint - 1) * g.t_int < g.n_tim ∧
     g.t_bins.length = g.n_timint ∧
     (∀ i, i < g.n_timint → g.t_bins.getD i 0 = i * g.t_int) ∧
     g.t_bins.getD 0 0 = 0 ∧
     (∀ i, i + 1 < g.n_timint →
       g.t_bins.getD i 0 < g.t_bins.getD (i + 1) 0 ∧
       g.t_bins.getD (i + 1) 0 = g.t_bins.getD i 0 + g.t_int) ∧
     (∀ i, i < g.n_timint → g.t_bins.getD i 0 < g.n_tim)) ∧
    (g.n_fre ≤ g.n_freint * g.f_int ∧
     (g.n_freint - 1) * g.f_int < g.n_fre ∧
     g.f_bins.length = g.n_freint ∧
     (∀ j, j < g.n_freint → g.f_bins.getD j 0 = j * g.f_int) ∧
     g.f_bins.getD 0 0 = 0 ∧
     (∀ j, j + 1 < g.n_freint →
       g.f_bins.getD j 0 < g.f_bins.getD (j + 1) 0 ∧
       g.f_bins.getD (j + 1) 0 = g.f_bins.getD j 0 + g.f_int) ∧
     (∀ j, j < g.n_freint → g.f_bins.getD j 0 < g.n_fre)) :=
  ⟨pyRange_props g.n_tim g.t_int ht htim, pyRange_props g.n_fre g.f_int hf hfre⟩

/-- C4 witness: the spec scenario `n_tim = 10`, `t_int = 3` gives
`n_timint = 4` and bin boundaries `[0, 3, 6, 9]`. -/
theorem C4_interval_geometry_witness :
    ((1 ≤ gEx.t_int ∧ 1 ≤ gEx.f_int ∧ 1 ≤ gEx.n_tim ∧ 1 ≤ gEx.n_fre) ∧
     gEx.t_bins.length = gEx.n_timint) ∧
    (gEx.n_timint = 4 ∧ gEx.t_bins = [0, 3, 6, 9]) :=
  ⟨⟨⟨by decide, by decide, by decide, by decide⟩,
    (C4_interval_geometry gEx (by decide) (by decide) (by decide)
      (by decide)).1.2.2.1⟩,
   by decide, by decide⟩

/-- C5: `interval_sum` on a well-shaped array collapses the two axes to
`(n_timint, n_freint)`; output cell `(i, j)` is the sum of exactly the
input cells of the corresponding half-open interval block (last
intervals extending to the axis ends, so no padding and no double
counting); an all-ones input yields the per-interval sample counts,
and the last time interval's count is `n_tim - (n_timint - 1) * t_int`. -/
theorem C5_interval_sum_cells (g : Gains) (arr : Nat → Nat → Nat) (i j : Nat)
    (ht : 1 ≤ g.t_int) (hf : 1 ≤ g.f_int)
    (htim : 1 ≤ g.n_tim) (hfre : 1 ≤ g.n_fre)
    (hi : i < g.n_timint) (hj : j < g.n_freint) :
    g.interval_sum g.n_tim g.n_fre arr i j =
      (∑ t ∈ Finset.Ico (i * g.t_int) (min ((i + 1) * g.t_int) g.n_tim),
        ∑ f ∈ Finset.Ico (j * g.f_int) (min ((j + 1) * g.f_int) g.n_fre),
          arr t f) ∧
    g.interval_sum g.n_tim g.n_fre (fun _ _ => 1) i j =
      (min ((i + 1) * g.t_int) g.n_tim - i * g.t_int) *
        (min ((j + 1) * g.f_int) g.n_fre - j * g.f_int) ∧
    (i = g.n_timint - 1 →
      min ((i + 1) * g.t_int) g.n_tim - i * g.t_int =
        g.n_tim - (g.n_timint - 1) * g.t_int) := by
  refine ⟨interval_sum_eq g arr i j ht hf htim hfre hi hj, ?_, ?_⟩
  · rw [interval_sum_eq g (fun _ _ => 1) i j ht hf htim hfre hi hj]
    simp [Finset.sum_const, Nat.card_Ico]
  · intro hilast
    subst hilast
    have h1 : g.n_tim ≤ g.n_timint * g.t_int := le_ceil_mul g.n_tim g.t_int ht
    have hq : 1 ≤ g.n_timint := ceil_pos g.n_tim g.t_int ht htim
    rw [show g.n_timint - 1 + 1 = g.n_timint from by omega]
    rw [min_eq_right h1]

/-- C5 witness: on the `n_tim = 10`, `t_int = 3` geometry, the all-ones
sum over the last time interval and second frequency interval gives
`1 * 2`, and the last time interval's sample count is
`10 - 3 * 3 = 1`. -/
theorem C5_interval_sum_cells_witness :
    ((3 : Nat) < gEx.n_timint ∧ (1 : Nat) < gEx.n_freint) ∧
    gEx.interval_sum gEx.n_tim gEx.n_fre (fun _ _ => 1) 3 1 =
      (min ((3 + 1) * gEx.t_int) gEx.n_tim - 3 * gEx.t_int) *
        (min ((1 + 1) * gEx.f_int) gEx.n_fre - 1 * gEx.f_int) ∧
    gEx.interval_sum gEx.n_tim gEx.n_fre (fun _ _ => 1) 3 1 = 2 ∧
    gEx.n_tim - (gEx.n_timint - 1) * gEx.t_int = 1 :=
  ⟨⟨by decide, by decide⟩,
   (C5_interval_sum_cells gEx (fun _ _ => 1) 3 1 (by decide) (by decide)
     (by decide) (by decide) (by decide) (by decide)).2.1,
   by decide, by decide⟩

/-- C1: on well-shaped inputs, `compute_stats` sets the `MISSING` bit in
`gflags[d, i, j, a]` for every direction `d` exactly on the slots whose
whole sample block is missing/prior-flagged on all trailing
sub-elements; a slot outside this condition whose entry was zero before
the call does not get the `MISSING` bit. -/
theorem C1_missing_propagation (g : Gains) (gf : Nat → Nat → Nat → Nat → Nat)
    (flags : FlagsArr) (eqs : EqsArr) (i j a : Nat)
    (ht : 1 ≤ g.t_int) (hf : 1 ≤ g.f_int)
    (htim : 1 ≤ g.n_tim) (hfre : 1 ≤ g.n_fre)
    (hlt : flags.lt = g.n_tim) (hlf : flags.lf = g.n_fre)
    (hi : i < g.n_timint) (hj : j < g.n_freint) :
    (blockAllMissing g flags i j a →
      ∀ d, (computeStats g gf flags eqs).gflags d i j a &&& FL.MISSING ≠ 0) ∧
    (¬ blockAllMissing g flags i j a →
      ∀ d, gf d i j a = 0 →
        (computeStats g gf flags eqs).gflags d i j a &&& FL.MISSING = 0) := by
  have hmg := missingGains_iff g flags i j a ht hf htim hfre hlt hlf hi hj
  constructor
  · intro hblock d
    simp only [computeStats_gflags, hmg.mpr hblock, if_true]
    decide
  · intro hblock d hzero
    have hfalse : missingGains g flags i j a = false := by
      rcases Bool.eq_false_or_eq_true (missingGains g flags i j a) with h | h
      · exact absurd (hmg.mp h) hblock
      · exact h
    simp only [computeStats_gflags, hfalse, Bool.false_eq_true, if_false, hzero]
    decide

/-- Machine for the spec's missing-propagation scenario: two directions,
three antennas, `n_tim = 4`, `t_int = 2`, `n_fre = 2`, `f_int = 1`. -/
def gW : Gains :=
  { n_dir := 2, n_mod := 1, n_tim := 4, n_fre := 2, n_ant := 3, n_cor := 2,
    t_int := 2, f_int := 1 }

/-- Flags for the scenario: all samples of interval `(0, 0)` for
antenna `2` are `MISSING`-flagged, nothing else is flagged. -/
def flagsW : FlagsArr :=
  ⟨4, 2, 3, 1, fun t f a _ => if a = 2 ∧ t < 2 ∧ f = 0 then FL.MISSING else 0⟩

/-- Equation counts for the scenario: one equation per slot. -/
def eqsW : EqsArr := ⟨4, 2, fun _ _ => 1⟩

/-- C1 witness: in the scenario, `gflags[:, 0, 0, 2]` gets the `MISSING`
bit for both directions, and a slot not covered by the condition with a
zero prior entry stays without it. -/
theorem C1_missing_propagation_witness :
    blockAllMissing gW flagsW 0 0 2 ∧
    (computeStats gW gflags0 flagsW eqsW).gflags 0 0 0 2 &&& FL.MISSING ≠ 0 ∧
    (computeStats gW gflags0 flagsW eqsW).gflags 1 0 0 2 &&& FL.MISSING ≠ 0 ∧
    ¬ blockAllMissing gW flagsW 1 0 2 ∧
    (computeStats gW gflags0 flagsW eqsW).gflags 0 1 0 2 &&& FL.MISSING = 0 :=
  ⟨by decide,
   (C1_missing_propagation gW gflags0 flagsW eqsW 0 0 2 (by decide) (by decide)
     (by decide) (by decide) rfl rfl (by decide) (by decide)).1 (by decide) 0,
   (C1_missing_propagation gW gflags0 flagsW eqsW 0 0 2 (by decide) (by decide)
     (by decide) (by decide) rfl rfl (by decide) (by decide)).1 (by decide) 1,
   by decide,
   (C1_missing_propagation gW gflags0 flagsW eqsW 1 0 2 (by decide) (by decide)
     (by decide) (by decide) rfl rfl (by decide) (by decide)).2 (by decide) 0 rfl⟩

/-- C2 counterexample: a slot with a previously set `ILLCOND` bit is
marked missing by `compute_stats`, and the write
`self.gflags[:, missing_gains] = FL.MISSING` erases the `ILLCOND` bit —
the claim that a distinct pre-set bit always survives is false. -/
theorem C2_overwrite_counterexample :
    gfIll 0 0 0 0 &&& FL.ILLCOND ≠ 0 ∧
    blockAllMissing g1 flagsAll 0 0 0 ∧
    (computeStats g1 gfIll flagsAll eqsA).gflags 0 0 0 0 &&& FL.ILLCOND = 0 := by
  decide

/-- C2 amended: when `compute_stats` marks a slot missing it overwrites
that slot's `gflags` entries with exactly `FL.MISSING` for every
direction, erasing any previously set distinct flag bit there;
previously set bits survive only on slots not marked missing. -/
theorem C2_overwrite_exact (g : Gains) (gf : Nat → Nat → Nat → Nat → Nat)
    (flags : FlagsArr) (eqs : EqsArr) (i j a : Nat)
    (ht : 1 ≤ g.t_int) (hf : 1 ≤ g.f_int)
    (htim : 1 ≤ g.n_tim) (hfre : 1 ≤ g.n_fre)
    (hlt : flags.lt = g.n_tim) (hlf : flags.lf = g.n_fre)
    (hi : i < g.n_timint) (hj : j < g.n_freint)
    (hblock : blockAllMissing g flags i j a) :
    ∀ d, (computeStats g gf flags eqs).gflags d i j a = FL.MISSING := by
  intro d
  have hmg := missingGains_iff g flags i j a ht hf htim hfre hlt hlf hi hj
  simp only [computeStats_gflags, hmg.mpr hblock, if_true]

/-- C2 witness: the overwrite at the concrete counterexample slot. -/
theorem C2_overwrite_exact_witness :
    blockAllMissing g1 flagsAll 0 0 0 ∧
    (computeStats g1 gfIll flagsAll eqsA).gflags 0 0 0 0 = FL.MISSING :=
  ⟨by decide,
   C2_overwrite_exact g1 gfIll flagsAll eqsA 0 0 0 (by decide) (by decide)
     (by decide) (by decide) rfl rfl (by decide) (by decide) (by decide) 0⟩

/-- C3: every `gflags` entry whose slot is not marked missing by the
call is left bit-identical; in particular a pre-set unrelated bit such
as `ILLCOND` on such a slot survives unchanged. -/
theorem C3_nondestructive_untouched (g : Gains)
    (gf : Nat → Nat → Nat → Nat → Nat)
    (flags : FlagsArr) (eqs : EqsArr) (i j a : Nat)
    (ht : 1 ≤ g.t_int) (hf : 1 ≤ g.f_int)
    (htim : 1 ≤ g.n_tim) (hfre : 1 ≤ g.n_fre)
    (hlt : flags.lt = g.n_tim) (hlf : flags.lf = g.n_fre)
    (hi : i < g.n_timint) (hj : j < g.n_freint)
    (hnot : ¬ blockAllMissing g flags i j a) :
    ∀ d, (computeStats g gf flags eqs).gflags d i j a = gf d i j a := by
  intro d
  have hmg := missingGains_iff g flags i j a ht hf htim hfre hlt hlf hi hj
  have hfalse : missingGains g flags i j a = false := by
    rcases Bool.eq_false_or_eq_true (missingGains g flags i j a) with h | h
    · exact absurd (hmg.mp h) hnot
    · exact h
  simp only [computeStats_gflags, hfalse, Bool.false_eq_true, if_false]

/-- C3 witness: a pre-set `ILLCOND` bit survives a `compute_stats` call
whose inputs mark nothing missing. -/
theorem C3_nondestructive_untouched_witness :
    ¬ blockAllMissing g1 flagsNone 0 0 0 ∧
    (computeStats g1 gfIll flagsNone eqsA).gflags 0 0 0 0 = gfIll 0 0 0 0 ∧
    gfIll 0 0 0 0 = FL.ILLCOND :=
  ⟨by decide,
   C3_nondestructive_untouched g1 gfIll flagsNone eqsA 0 0 0 (by decide)
     (by decide) (by decide) (by decide) rfl rfl (by decide) (by decide)
     (by decide) 0,
   rfl⟩

/-- C6 counterexample: a second `compute_stats` call whose inputs mark
nothing missing still shows the first call's `MISSING` marking in
`gflags` — the claim that the flag state is fully recomputed from the
second call's inputs alone is false.  (The same inputs applied to the
fresh machine yield a zero entry.) -/
theorem C6_stale_missing_counterexample :
    ¬ blockAllMissing g1 flagsNone 0 0 0 ∧
    (computeStats g1 (computeStats g1 gflags0 flagsAll eqsA).gflags
        flagsNone eqsA).gflags 0 0 0 0 &&& FL.MISSING ≠ 0 ∧
    (computeStats g1 gflags0 flagsNone eqsA).gflags 0 0 0 0 = 0 := by
  decide

/-- C6 amended: `eqs_per_interval`, `valid_intervals`,
`num_valid_intervals` and `missing_gain_fraction` are recomputed
wholesale from the second call's inputs alone (they agree with a call
on a freshly zeroed machine and retain nothing of the first call), but
`gflags` accumulates: a slot holding `FL.MISSING` after the first call
still holds it after a second call, whatever the second call's
inputs. -/
theorem C6_recompute_and_accumulate (g : Gains)
    (gf : Nat → Nat → Nat → Nat → Nat)
    (fl1 : FlagsArr) (eq1 : EqsArr) (fl2 : FlagsArr) (eq2 : EqsArr) :
    (computeStats g (computeStats g gf fl1 eq1).gflags fl2 eq2).eqs_per_interval
      = (computeStats g gflags0 fl2 eq2).eqs_per_interval ∧
    (computeStats g (computeStats g gf fl1 eq1).gflags fl2 eq2).valid_intervals
      = (computeStats g gflags0 fl2 eq2).valid_intervals ∧
    (computeStats g (computeStats g gf fl1 eq1).gflags fl2 eq2).num_valid_intervals
      = (computeStats g gflags0 fl2 eq2).num_valid_intervals ∧
    (computeStats g (computeStats g gf fl1 eq1).gflags fl2 eq2).missing_gain_fraction
      = (computeStats g gflags0 fl2 eq2).missing_gain_fraction ∧
    (∀ d i j a, (computeStats g gf fl1 eq1).gflags d i j a = FL.MISSING →
      (computeStats g (computeStats g gf fl1 eq1).gflags fl2 eq2).gflags d i j a
        = FL.MISSING) := by
  refine ⟨rfl, rfl, rfl, rfl, ?_⟩
  intro d i j a hmiss
  have hstep : (computeStats g (computeStats g gf fl1 eq1).gflags fl2 eq2).gflags d i j a
      = if missingGains g fl2 i j a then FL.MISSING
        else (computeStats g gf fl1 eq1).gflags d i j a := rfl
  rw [hstep]
  by_cases h2 : missingGains g fl2 i j a
  · rw [if_pos h2]
  · rw [if_neg h2]
    exact hmiss

/-- C6 witness: the per-interval statistics after the second call agree
with a fresh computation from the second call's inputs, while the
`MISSING` marking of the first call persists. -/
theorem C6_recompute_and_accumulate_witness :
    (computeStats g1 (computeStats g1 gflags0 flagsAll eqsA).gflags
        flagsNone eqsA).eqs_per_interval
      = (computeStats g1 gflags0 flagsNone eqsA).eqs_per_interval ∧
    (computeStats g1 gflags0 flagsAll eqsA).gflags 0 0 0 0 = FL.MISSING ∧
    (computeStats g1 (computeStats g1 gflags0 flagsAll eqsA).gflags
        flagsNone eqsA).gflags 0 0 0 0 = FL.MISSING :=
  ⟨(C6_recompute_and_accumulate g1 gflags0 flagsAll eqsA flagsNone eqsA).1,
   by decide,
   (C6_recompute_and_accumulate g1 gflags0 flagsAll eqsA flagsNone
     eqsA).2.2.2.2 0 0 0 0 (by decide)⟩

/-- C7: `compute_stats` is idempotent — calling it twice in succession
with identical flag and equation-count inputs yields bit-identical
`gflags`, `eqs_per_interval`, `valid_intervals`, `num_valid_intervals`
and `missing_gain_fraction` after the second call as after the
first. -/
theorem C7_idempotent (g : Gains) (gf : Nat → Nat → Nat → Nat → Nat)
    (flags : FlagsArr) (eqs : EqsArr) :
    (computeStats g (computeStats g gf flags eqs).gflags flags eqs).gflags
      = (computeStats g gf flags eqs).gflags ∧
    (computeStats g (computeStats g gf flags eqs).gflags flags eqs).eqs_per_interval
      = (computeStats g gf flags eqs).eqs_per_interval ∧
    (computeStats g (computeStats g gf flags eqs).gflags flags eqs).valid_intervals
      = (computeStats g gf flags eqs).valid_intervals ∧
    (computeStats g (computeStats g gf flags eqs).gflags flags eqs).num_valid_intervals
      = (computeStats g gf flags eqs).num_valid_intervals ∧
    (computeStats g (computeStats g gf flags eqs).gflags flags eqs).missing_gain_fraction
      = (computeStats g gf flags eqs).missing_gain_fraction := by
  refine ⟨?_, rfl, rfl, rfl, rfl⟩
  funext d i j a
  have hstep : ∀ gfx : Nat → Nat → Nat → Nat → Nat,
      (computeStats g gfx flags eqs).gflags d i j a
        = if missingGains g flags i j a then FL.MISSING else gfx d i j a :=
    fun gfx => rfl
  rw [hstep, hstep]
  by_cases h : missingGains g flags i j a
  · rw [if_pos h, if_pos h]
  · rw [if_neg h, if_neg h]

/-- Flag input whose time axis is longer (`lt = 2`) than `g1` expects
(`n_tim = 1`): a shape-mismatched input. -/
def flagsBig : FlagsArr := ⟨2, 1, 1, 1, fun _ _ _ _ => FL.MISSING⟩

/-- Equation-count input whose time axis is longer (`lt = 2`) than `g1`
expects (`n_tim = 1`): a shape-mismatched input. -/
def eqsBig : EqsArr := ⟨2, 1, fun _ _ => 1⟩

/-- C8 counterexample: `compute_stats` contains no shape validation and
defines no `ShapeMismatch` error.  A flag array whose time axis is
longer than the expected per-sample shape is processed to completion,
and the gain-flag array is mutated, contradicting both the claimed
error at the start of the call and the claimed absence of mutation on
validation failure. -/
theorem C8_no_shape_error_counterexample :
    flagsBig.lt ≠ g1.n_tim ∧
    gflags0 0 0 0 0 = 0 ∧
    (computeStats g1 gflags0 flagsBig eqsA).gflags 0 0 0 0 = FL.MISSING := by
  decide

/-- C8 amended: `compute_stats` performs no shape validation and raises
no `ShapeMismatch`.  An input equation-count array whose axes are at
least as long as the expected `n_tim × n_fre` is processed silently:
the final interval's binned sum extends to the end of the actual axes,
folding the surplus samples in.  (An undersized axis is outside this
embedding: there the underlying `reduceat` aborts with a library-level
index error, still not the claimed `ShapeMismatch`.) -/
theorem C8_oversized_fold (g : Gains) (gf : Nat → Nat → Nat → Nat → Nat)
    (flags : FlagsArr) (eqs : EqsArr)
    (ht : 1 ≤ g.t_int) (hf : 1 ≤ g.f_int)
    (htim : 1 ≤ g.n_tim) (hfre : 1 ≤ g.n_fre)
    (hovt : g.n_tim ≤ eqs.lt) (hovf : g.n_fre ≤ eqs.lf) :
    (computeStats g gf flags eqs).eqs_per_interval
        (g.n_timint - 1) (g.n_freint - 1) =
      ∑ t ∈ Finset.Ico ((g.n_timint - 1) * g.t_int) eqs.lt,
        ∑ f ∈ Finset.Ico ((g.n_freint - 1) * g.f_int) eqs.lf,
          eqs.data t f := by
  have hseg : ∀ stop step L : Nat, 1 ≤ step → 1 ≤ stop → stop ≤ L →
      seg (pyRange stop step) L (((stop + step - 1) / step) - 1) =
        Finset.Ico ((((stop + step - 1) / step) - 1) * step) L := by
    intro stop step L hstep hstop hL
    have hq := ceil_pos stop step hstep hstop
    unfold seg
    rw [pyRange_getD stop step _ 0 (by omega),
        show (stop + step - 1) / step - 1 + 1 = (stop + step - 1) / step
          from by omega,
        pyRange_getD_default stop step _ L (le_refl _)]
  rw [computeStats_eqs_per_interval]
  unfold Gains.interval_sum reduceatSum
  have hseg_t : seg (pyRange g.n_tim g.t_int) eqs.lt (g.n_timint - 1)
      = Finset.Ico ((g.n_timint - 1) * g.t_int) eqs.lt :=
    hseg g.n_tim g.t_int eqs.lt ht htim hovt
  have hseg_f : seg (pyRange g.n_fre g.f_int) eqs.lf (g.n_freint - 1)
      = Finset.Ico ((g.n_freint - 1) * g.f_int) eqs.lf :=
    hseg g.n_fre g.f_int eqs.lf hf hfre hovf
  rw [show g.t_bins = pyRange g.n_tim g.t_int from rfl,
      show g.f_bins = pyRange g.n_fre g.f_int from rfl,
      hseg_t, hseg_f]
  exact Finset.sum_comm

/-- C8 witness: for the minimal machine (`n_tim = 1`) and an
equation-count array with two time samples, the call completes and its
single interval sums both samples, giving `2`. -/
theorem C8_oversized_fold_witness :
    (g1.n_tim ≤ eqsBig.lt ∧ g1.n_tim ≠ eqsBig.lt) ∧
    (computeStats g1 gflags0 flagsNone eqsBig).eqs_per_interval
        (g1.n_timint - 1) (g1.n_freint - 1) =
      (∑ t ∈ Finset.Ico ((g1.n_timint - 1) * g1.t_int) eqsBig.lt,
        ∑ f ∈ Finset.Ico ((g1.n_freint - 1) * g1.f_int) eqsBig.lf,
          eqsBig.data t f) ∧
    (computeStats g1 gflags0 flagsNone eqsBig).eqs_per_interval 0 0 = 2 :=
  ⟨⟨by decide, by decide⟩,
   C8_oversized_fold g1 gflags0 flagsNone eqsBig (by decide) (by decide)
     (by decide) (by decide) (by decide) (by decide),
   by decide⟩

/-- C9: after a `compute_stats` call, `missing_gain_fraction` is the
count of true entries of `missing_gains` divided by its total size,
hence lies in `[0, 1]`; it is exactly `0` when no sample is
missing/prior-flagged and exactly `1` when all samples are. -/
theorem C9_missing_fraction (g : Gains) (gf : Nat → Nat → Nat → Nat → Nat)
    (flags : FlagsArr) (eqs : EqsArr)
    (ht : 1 ≤ g.t_int) (hf : 1 ≤ g.f_int)
    (htim : 1 ≤ g.n_tim) (hfre : 1 ≤ g.n_fre)
    (hlt : flags.lt = g.n_tim) (hlf : flags.lf = g.n_fre)
    (hla : 1 ≤ flags.la) (hlx : 1 ≤ flags.lx) :
    (computeStats g gf flags eqs).missing_gain_fraction =
      (mgCount g flags : ℚ) /
        ((g.n_timint * g.n_freint * flags.la : Nat) : ℚ) ∧
    0 ≤ (computeStats g gf flags eqs).missing_gain_fraction ∧
    (computeStats g gf flags eqs).missing_gain_fraction ≤ 1 ∧
    ((∀ t f a x, flags.data t f a x &&& (FL.MISSING ||| FL.PRIOR) = 0) →
      (computeStats g gf flags eqs).missing_gain_fraction = 0) ∧
    ((∀ t f a x, flags.data t f a x &&& (FL.MISSING ||| FL.PRIOR) ≠ 0) →
      (computeStats g gf flags eqs).missing_gain_fraction = 1) := by
  have hq : 1 ≤ g.n_timint := ceil_pos g.n_tim g.t_int ht htim
  have hr : 1 ≤ g.n_freint := ceil_pos g.n_fre g.f_int hf hfre
  have hsize : 0 < g.n_timint * g.n_freint * flags.la :=
    Nat.mul_pos (Nat.mul_pos hq hr) hla
  have hsizeQ : (0 : ℚ) < ((g.n_timint * g.n_freint * flags.la : Nat) : ℚ) := by
    exact_mod_cast hsize
  have hcount : mgCount g flags ≤ g.n_timint * g.n_freint * flags.la := by
    unfold mgCount
    calc ∑ i ∈ Finset.range g.n_timint, ∑ j ∈ Finset.range g.n_freint,
          ∑ a ∈ Finset.range flags.la,
            (if missingGains g flags i j a then 1 else 0)
        ≤ ∑ i ∈ Finset.range g.n_timint, ∑ j ∈ Finset.range g.n_freint,
            ∑ a ∈ Finset.range flags.la, 1 := by
          refine Finset.sum_le_sum fun i _ => Finset.sum_le_sum fun j _ =>
            Finset.sum_le_sum fun a _ => ?_
          split <;> omega
      _ = g.n_timint * g.n_freint * flags.la := by
          simp [Finset.sum_const, Finset.card_range, Nat.mul_assoc]
  refine ⟨computeStats_fraction g gf flags eqs, ?_, ?_, ?_, ?_⟩
  · rw [computeStats_fraction]
    exact div_nonneg (Nat.cast_nonneg _) (Nat.cast_nonneg _)
  · rw [computeStats_fraction, div_le_one hsizeQ]
    exact_mod_cast hcount
  · intro h0
    rw [computeStats_fraction]
    have hzero : mgCount g flags = 0 := by
      unfold mgCount
      refine Finset.sum_eq_zero fun i hiR => Finset.sum_eq_zero fun j hjR =>
        Finset.sum_eq_zero fun a _ => ?_
      have hi := Finset.mem_range.mp hiR
      have hj := Finset.mem_range.mp hjR
      have hfalse : missingGains g flags i j a = false := by
        rcases Bool.eq_false_or_eq_true (missingGains g flags i j a) with hb | hb
        · exfalso
          have hblock :=
            (missingGains_iff g flags i j a ht hf htim hfre hlt hlf hi hj).mp hb
          have hlastT : (g.n_timint - 1) * g.t_int < g.n_tim :=
            ceil_pred_mul_lt g.n_tim g.t_int ht htim
          have hlastF : (g.n_freint - 1) * g.f_int < g.n_fre :=
            ceil_pred_mul_lt g.n_fre g.f_int hf hfre
          have htmem : i * g.t_int ∈
              Finset.Ico (i * g.t_int) (min ((i + 1) * g.t_int) g.n_tim) := by
            rw [Finset.mem_Ico]
            refine ⟨le_refl _, lt_min ?_ ?_⟩
            · calc i * g.t_int < i * g.t_int + g.t_int := by omega
                _ = (i + 1) * g.t_int := by ring
            · calc i * g.t_int ≤ (g.n_timint - 1) * g.t_int :=
                    Nat.mul_le_mul_right _ (by omega)
                _ < g.n_tim := hlastT
          have hfmem : j * g.f_int ∈
              Finset.Ico (j * g.f_int) (min ((j + 1) * g.f_int) g.n_fre) := by
            rw [Finset.mem_Ico]
            refine ⟨le_refl _, lt_min ?_ ?_⟩
            · calc j * g.f_int < j * g.f_int + g.f_int := by omega
                _ = (j + 1) * g.f_int := by ring
            · calc j * g.f_int ≤ (g.n_freint - 1) * g.f_int :=
                    Nat.mul_le_mul_right _ (by omega)
                _ < g.n_fre := hlastF
          have hxmem : (0 : Nat) ∈ Finset.range flags.lx :=
            Finset.mem_range.mpr (by omega)
          exact hblock _ htmem _ hfmem 0 hxmem (h0 _ _ a 0)
        · exact hb
      simp [hfalse]
    rw [hzero]
    simp
  · intro h1
    rw [computeStats_fraction]
    have hall : ∀ i j a, missingGains g flags i j a = true := by
      intro i j a
      unfold missingGains Gains.interval_and reduceatAll allMissingPrior
      simp only [decide_eq_true_eq]
      intro f _ t _ x _
      exact h1 t f a x
    have hfull : mgCount g flags = g.n_timint * g.n_freint * flags.la := by
      unfold mgCount
      calc ∑ i ∈ Finset.range g.n_timint, ∑ j ∈ Finset.range g.n_freint,
            ∑ a ∈ Finset.range flags.la,
              (if missingGains g flags i j a then 1 else 0)
          = ∑ i ∈ Finset.range g.n_timint, ∑ j ∈ Finset.range g.n_freint,
              ∑ a ∈ Finset.range flags.la, 1 := by
            refine Finset.sum_congr rfl fun i _ => Finset.sum_congr rfl
              fun j _ => Finset.sum_congr rfl fun a _ => ?_
            simp [hall]
        _ = g.n_timint * g.n_freint * flags.la := by
            simp [Finset.sum_const, Finset.card_range, Nat.mul_assoc]
    rw [hfull]
    exact div_self (ne_of_gt hsizeQ)

/-- C9 witness: with every sample missing-flagged on the minimal
machine, the fraction is exactly `1`. -/
theorem C9_missing_fraction_witness :
    (1 ≤ g1.t_int ∧ flagsAll.lt = g1.n_tim ∧ 1 ≤ flagsAll.la ∧
      1 ≤ flagsAll.lx) ∧
    (computeStats g1 gflags0 flagsAll eqsA).missing_gain_fraction = 1 :=
  ⟨⟨by decide, rfl, by decide, by decide⟩,
   (C9_missing_fraction g1 gflags0 flagsAll eqsA (by decide) (by decide)
     (by decide) (by decide) rfl rfl (by decide) (by decide)).2.2.2.2
     (fun _ _ _ _ => by
       show FL.MISSING &&& (FL.MISSING ||| FL.PRIOR) ≠ 0
       decide)⟩

/-- A list of naturals of length eight is an eight-element literal. -/
lemma list_len8 {l : List Nat} (h : l.length = 8) :
    ∃ a b c d e f g h8, l = [a, b, c, d, e, f, g, h8] := by
  rcases l with _ | ⟨a, _ | ⟨b, _ | ⟨c, _ | ⟨d, _ | ⟨e, _ | ⟨f, _ |
    ⟨g, _ | ⟨h8, _ | ⟨i, l⟩⟩⟩⟩⟩⟩⟩⟩⟩ <;> simp_all

/-- C10: construction succeeds exactly for model shapes with eight
axes; when the two antenna axes (indices 4 and 5) or the two
correlation axes (indices 6 and 7) differ no error is raised: `n_ant`
is taken from axis 5 and `n_cor` from axis 7, and `gain_shape`,
`flag_shape` and the zero-initialized `gflags` use those values. -/
theorem C10_shape_unpack (shape : List Nat) (t_int f_int : Nat) :
    ((mkGains shape t_int f_int).isSome ↔ shape.length = 8) ∧
    (∀ d m t f a1 a2 c1 c2, shape = [d, m, t, f, a1, a2, c1, c2] →
      ∃ g, mkGains shape t_int f_int = some g ∧
        g.n_ant = a2 ∧ g.n_cor = c2 ∧
        g.gain_shape = [d, g.n_timint, g.n_freint, a2, c2, c2] ∧
        g.flag_shape = [d, g.n_timint, g.n_freint, a2] ∧
        ∀ dd i j a, gflags0 dd i j a = 0) := by
  constructor
  · rcases shape with _ | ⟨a, _ | ⟨b, _ | ⟨c, _ | ⟨d, _ | ⟨e, _ | ⟨f, _ |
      ⟨gg, _ | ⟨hh, _ | ⟨i, l⟩⟩⟩⟩⟩⟩⟩⟩⟩ <;> simp [mkGains]
  · intro d m t f a1 a2 c1 c2 hshape
    subst hshape
    exact ⟨_, rfl, rfl, rfl, rfl, rfl, fun _ _ _ _ => rfl⟩

/-- C10 witness: the shape `[1, 1, 2, 2, 3, 5, 2, 4]` with unequal
antenna axes (3 vs 5) and unequal correlation axes (2 vs 4) constructs
a machine with `n_ant = 5` and `n_cor = 4`, with no error raised. -/
theorem C10_shape_unpack_witness :
    (([1, 1, 2, 2, 3, 5, 2, 4] : List Nat) = [1, 1, 2, 2, 3, 5, 2, 4]) ∧
    ∃ g, mkGains [1, 1, 2, 2, 3, 5, 2, 4] 1 1 = some g ∧
      g.n_ant = 5 ∧ g.n_cor = 4 ∧
      g.gain_shape = [1, g.n_timint, g.n_freint, 5, 4, 4] ∧
      g.flag_shape = [1, g.n_timint, g.n_freint, 5] ∧
      ∀ dd i j a, gflags0 dd i j a = 0 :=
  ⟨rfl,
   (C10_shape_unpack [1, 1, 2, 2, 3, 5, 2, 4] 1 1).2 1 1 2 2 3 5 2 4 rfl⟩

end CubiCal
